import Mathlib

/-!
# Verification of the nihao relay-intelligence and resolution engine

Shallow embedding of the relay classification, probing/scoring, discovery,
selection and multi-peer resolution code (`relay.go`, `check.go`) of the
nihao repository, together with proofs of the specified properties.

Modelling conventions:
* Go `float64` scores are modelled as `Rat` (the score arithmetic involves
  only small decimal constants and comparisons, where rational arithmetic
  agrees with the double-precision evaluation order used by the code).
* Go `int64` values (latencies, timestamps) are modelled as `Int`.
* Go strings are modelled as Lean `String`; the character-level trimming
  functions of `normalizeRelayURL` are modelled on `List Char`.
* Network I/O is modelled by passing each probe's outcome as an explicit
  argument (e.g. the NIP-11 fetch result is an `Option`, absent on error).
-/

namespace Nihao

/-! ## Data model (relay.go) -/

/-- `RelayLimitation` from relay.go: the `limitation` section of a NIP-11
relay information document. -/
structure RelayLimitation where
  MaxMessageLength : Int
  MaxSubscriptions : Int
  MaxFilters : Int
  MaxEventTags : Int
  MaxContentLength : Int
  AuthRequired : Bool
  PaymentRequired : Bool
deriving Repr, DecidableEq

/-- `RelayInfo` from relay.go: NIP-11 relay information document. -/
structure RelayInfo where
  Name : String
  Description : String
  Pubkey : String
  Contact : String
  SupportedNIPs : List Int
  Software : String
  Version : String
  Limitation : Option RelayLimitation
  PaymentRequired : Bool
deriving Repr, DecidableEq

/-- `RelayScore` from relay.go: quality metrics for a single relay.
The Go `Score float64` field is modelled as `Rat`. -/
structure RelayScore where
  URL : String
  Reachable : Bool
  LatencyMs : Int
  Info : Option RelayInfo
  HasNIP11 : Bool
  SupportsRead : Bool
  SupportsWrite : Bool
  AuthRequired : Bool
  PaymentRequired : Bool
  Score : Rat
  Purpose : String
  Issues : List String
deriving Repr, DecidableEq

/-! ## Classifier (relay.go) -/

/-- `knownRelayPurposes` from relay.go: exact-match table mapping specific
relay URLs to purposes (a Go map with distinct keys, modelled as an
association list). -/
def knownRelayPurposes : List (String × String) :=
  [ ("wss://purplepag.es", "outbox"),
    ("wss://relay.nos.social", "inbox"),
    ("wss://inbox.relays.land", "inbox"),
    ("wss://search.nos.today", "search"),
    ("wss://premium.primal.net", "paid"),
    ("wss://nostr.wine", "paid") ]

/-- `urlPatterns` from relay.go: ordered substring-pattern rules
(pattern, purpose), checked in order when no exact match is found. -/
def urlPatterns : List (String × String) :=
  [ ("/inbox", "inbox"),
    ("nwc.", "nwc"),
    ("pyramid.", "paid"),
    ("premium.", "paid") ]

/-- Go `strings.Contains s pat`: `pat` occurs as a contiguous substring
of `s` (true for the empty pattern). -/
def goContains (s pat : String) : Bool :=
  s.toList.tails.any (fun t => pat.toList.isPrefixOf t)

/-- `classifyRelay` from relay.go: determine a relay's purpose; exact
table first, then first matching substring pattern, else "general". -/
def classifyRelay (relayURL : String) : String :=
  match knownRelayPurposes.lookup relayURL with
  | some purpose => purpose
  | none =>
    match urlPatterns.find? (fun p => goContains relayURL p.1) with
    | some p => p.2
    | none => "general"

/-! ## Quality scorer (relay.go) -/

/-- `calculateRelayScore` from relay.go. In Go the function receives the
record by value, appends issue strings to its local copy's `Issues` field
while computing the `float64` score, and returns only the score; the model
returns the `(score, issues)` pair of that local copy so that the caller
(`ScoreRelay`) can be seen to discard the issue list. Each Go statement
that both updates the score and appends an issue is split into its score
component and its issue component (the shadowing `let`s mirror the
sequential mutation). -/
def calculateRelayScore (rs : RelayScore) : Rat × List String :=
  if rs.Reachable = false then
    (0, rs.Issues ++ ["unreachable"])
  else
    -- base score for being reachable
    let score : Rat := 5/10
    -- NIP-11 support (+0.15)
    let score := if rs.HasNIP11 then score + 15/100 else score
    let issues := if rs.HasNIP11 then rs.Issues else rs.Issues ++ ["no NIP-11"]
    -- Latency scoring (+0.2 max)
    let score :=
      if rs.LatencyMs < 200 then score + 20/100
      else if rs.LatencyMs < 500 then score + 15/100
      else if rs.LatencyMs < 1000 then score + 10/100
      else if rs.LatencyMs < 2000 then score + 5/100
      else score
    let issues :=
      if rs.LatencyMs < 2000 then issues
      else issues ++ ["slow (" ++ toString rs.LatencyMs ++ "ms)"]
    -- Auth/payment penalties
    let score := if rs.AuthRequired then score - 1/10 else score
    let issues := if rs.AuthRequired then issues ++ ["auth required"] else issues
    let score := if rs.PaymentRequired then score - 1/10 else score
    let issues := if rs.PaymentRequired then issues ++ ["payment required"] else issues
    let score := if score > 1 then (1 : Rat) else score
    let score := if score < 0 then (0 : Rat) else score
    (score, issues)

/-! ## Capability prober (relay.go)

`ScoreRelay` performs two network sub-probes; their outcomes are passed as
arguments: `nip11` is `some (info, latencyMs)` when `fetchNIP11` returned
a document without error, `none` otherwise; `canConnect` and `wsLatencyMs`
are the outcome of `testRelayReadWrite`. -/

/-- The record built by `ScoreRelay` from relay.go before the final score
assignment: classify the relay, merge the NIP-11 outcome (document,
latency, auth/payment flags) and the WebSocket outcome (reachability,
fallback latency, read/write support). -/
def scoreRelayRecord (relayURL : String) (nip11 : Option (RelayInfo × Int))
    (canConnect : Bool) (wsLatencyMs : Int) : RelayScore :=
  let rs : RelayScore :=
    { URL := relayURL, Reachable := false, LatencyMs := 0, Info := none,
      HasNIP11 := false, SupportsRead := false, SupportsWrite := false,
      AuthRequired := false, PaymentRequired := false, Score := 0,
      Purpose := classifyRelay relayURL, Issues := [] }
  -- Fetch NIP-11: on success record the document, its latency and flags
  let rs :=
    match nip11 with
    | some (info, nip11Latency) =>
      let rs := { rs with HasNIP11 := true, Info := some info,
                          LatencyMs := nip11Latency }
      match info.Limitation with
      | some lim => { rs with AuthRequired := lim.AuthRequired,
                              PaymentRequired := lim.PaymentRequired }
      | none => rs
    | none => rs
  -- Test WebSocket connectivity
  let rs := { rs with Reachable := canConnect }
  if canConnect then
    let rs := if rs.LatencyMs = 0 then { rs with LatencyMs := wsLatencyMs } else rs
    { rs with SupportsRead := true, SupportsWrite := true }
  else rs

/-- `ScoreRelay` from relay.go: build the capability record for one relay
from the two probe outcomes and compute its score (0.0 - 1.0). The issue
list computed on `calculateRelayScore`'s by-value copy is dropped. -/
def ScoreRelay (relayURL : String) (nip11 : Option (RelayInfo × Int))
    (canConnect : Bool) (wsLatencyMs : Int) : RelayScore :=
  let rs := scoreRelayRecord relayURL nip11 canConnect wsLatencyMs
  { rs with Score := (calculateRelayScore rs).1 }

/-! ## URL normalization (relay.go) -/

/-- The characters accepted by Go's `unicode.IsSpace` (the white-space
code points trimmed by `strings.TrimSpace`). -/
def goSpaceChars : List Char :=
  ['\t', '\n', '\x0B', '\x0C', '\r', ' ', '\x85', '\xA0',
   ' ', ' ', ' ', ' ', ' ', ' ', ' ',
   ' ', ' ', ' ', ' ', ' ', ' ', ' ',
   ' ', ' ', '　']

/-- Go `unicode.IsSpace`. -/
def isGoSpace (c : Char) : Bool := goSpaceChars.contains c

/-- Remove the longest run of characters satisfying `p` from the left. -/
def trimLeftChars (p : Char → Bool) (l : List Char) : List Char :=
  l.dropWhile p

/-- Remove the longest run of characters satisfying `p` from the right
(Go `strings.TrimRight` with a one-character cut set, and the right half
of `strings.TrimSpace`). -/
def trimRightChars (p : Char → Bool) (l : List Char) : List Char :=
  (l.reverse.dropWhile p).reverse

/-- Go `strings.TrimSpace`. -/
def trimSpace (l : List Char) : List Char :=
  trimRightChars isGoSpace (trimLeftChars isGoSpace l)

/-- `normalizeRelayURL` from relay.go, on character lists: trim
surrounding white space, strip trailing slashes, and require a
`wss://` or `ws://` transport prefix, else discard (empty string). -/
def normalizeRelayChars (url : List Char) : List Char :=
  let url1 := trimSpace url
  let url2 := trimRightChars (fun c => c = '/') url1
  if "wss://".toList.isPrefixOf url2 || "ws://".toList.isPrefixOf url2 then
    url2
  else
    []

/-- `normalizeRelayURL` from relay.go, wrapped on `String`. -/
def normalizeRelayURL (url : String) : String :=
  ⟨normalizeRelayChars url.toList⟩

/-! ## Selector (relay.go) -/

/-- The loop body of `SelectRelays` from relay.go, walking the sorted
candidates while tracking the `selected` list and the `hasOutbox` flag.
Returns the final `(selected, hasOutbox)` state. -/
def selectLoop (maxCount : Int) :
    List RelayScore → List String → Bool → List String × Bool
  | [], selected, hasOutbox => (selected, hasOutbox)
  | rs :: rest, selected, hasOutbox =>
    if (selected.length : Int) ≥ maxCount then
      (selected, hasOutbox)  -- break
    else if rs.Reachable = false then
      selectLoop maxCount rest selected hasOutbox
    else if rs.PaymentRequired then
      selectLoop maxCount rest selected hasOutbox  -- skip paid relays
    else if rs.Purpose = "inbox" ∨ rs.Purpose = "search" ∨
            rs.Purpose = "nwc" ∨ rs.Purpose = "paid" then
      selectLoop maxCount rest selected hasOutbox
    else if rs.Purpose = "outbox" then
      -- Ensure we have at least one outbox relay
      if hasOutbox = false then
        selectLoop maxCount rest (selected ++ [rs.URL]) true
      else
        selectLoop maxCount rest selected hasOutbox
    else
      -- General relays — pick by score
      if rs.Score ≥ 5/10 then
        selectLoop maxCount rest (selected ++ [rs.URL]) hasOutbox
      else
        selectLoop maxCount rest selected hasOutbox

/-- `SelectRelays` from relay.go: pick an optimal relay set from scored
candidates; if no outbox relay was selected, append purplepag.es as
fallback. -/
def SelectRelays (candidates : List RelayScore) (maxCount : Int) : List String :=
  let maxCount := if maxCount ≤ 0 then 5 else maxCount
  let st := selectLoop maxCount candidates [] false
  -- st.1 = selected, st.2 = hasOutbox
  if st.2 = false then st.1 ++ ["wss://purplepag.es"] else st.1

/-! ## Discovery engine (relay.go)

`DiscoverRelays` spawns one task per reference account; each task walks the
seed relays in order: a failed connection moves on to the next seed, and
after the first successful connection it drains the query results into the
shared tally and then leaves the seed loop (`break`), whether or not any
event was returned. The per-account seed walk is modelled below; the
outcome of each seed connection is passed explicitly. -/

/-- Outcome of attempting one seed relay for one reference account:
the connection fails, or it succeeds and the kind-10002 query returns the
given events (each event modelled by its tag list). -/
inductive SeedOutcome where
  | connectFail
  | connectOk (events : List (List (List String)))
deriving Repr, DecidableEq

/-- The tag-extraction step of `DiscoverRelays`: from the events returned
by a seed, collect `normalizeRelayURL tag[1]` for every tag with at least
two elements whose first element is "r", discarding empty normalizations. -/
def extractRelayURLs (events : List (List (List String))) : List String :=
  events.flatMap (fun evt =>
    evt.filterMap (fun tag =>
      match tag with
      | t0 :: t1 :: _ =>
        if t0 = "r" then
          let url := normalizeRelayURL t1
          if url = "" then none else some url
        else none
      | _ => none))

/-- The per-account seed loop of `DiscoverRelays`: try seeds in order,
skip failed connections, and stop after the first successful connection.
Returns (number of seeds queried, tally contributions). -/
def trySeedsForAccount : List SeedOutcome → Nat × List String
  | [] => (0, [])
  | .connectFail :: rest =>
    let r := trySeedsForAccount rest
    (r.1 + 1, r.2)
  | .connectOk events :: _ =>
    (1, extractRelayURLs events)  -- got it from one seed, move on

/-- Whether a seed outcome yielded the account's peer-list document
(a successful connection whose query returned at least one event). -/
def seedYieldedDoc : SeedOutcome → Bool
  | .connectFail => false
  | .connectOk events => !events.isEmpty

/-! ## Resolver (check.go) -/

/-- The fields of a `nostr.Event` that `fetchKindFrom` inspects: the
`CreatedAt` timestamp (int64) drives the newest-wins comparison; the
payload stands for all remaining fields of the document. -/
structure NostrEvent where
  CreatedAt : Int
  payload : String
deriving Repr, DecidableEq

/-- `fetchResult` from check.go: one relay's answer — its URL and its best
matching event, or none. -/
structure fetchResult where
  url : String
  evt : Option NostrEvent
deriving Repr, DecidableEq

/-- The best-so-far update of `fetchKindFrom`'s receive loop: a received
result replaces the current best exactly when it carries an event and
either no best exists yet or the new event's `CreatedAt` is strictly
greater. -/
def updateBest (best : String × Option NostrEvent) (r : fetchResult) :
    String × Option NostrEvent :=
  match r.evt with
  | none => best
  | some e =>
    match best.2 with
    | none => (r.url, some e)
    | some bestEvt =>
      if e.CreatedAt > bestEvt.CreatedAt then (r.url, some e) else best

/-- One observation of `fetchKindFrom`'s `select` loop: either a fetch
result arrives on the channel, or the context deadline fires. -/
inductive Arrival where
  | resp (r : fetchResult)
  | deadline
deriving Repr, DecidableEq

/-- The receive loop of `fetchKindFrom` from check.go: starting from the
current best and `remaining` outstanding relays, consume observations in
arrival order; each response updates the best and decrements `remaining`;
the loop returns the best-so-far when `remaining` reaches zero or when the
deadline fires (a trace that ends early corresponds to a closed context:
nothing further arrives). -/
def fetchLoop (best : String × Option NostrEvent) :
    Nat → List Arrival → String × Option NostrEvent
  | 0, _ => best
  | _ + 1, [] => best
  | remaining + 1, .resp r :: rest => fetchLoop (updateBest best r) remaining rest
  | _ + 1, .deadline :: _ => best

/-- `fetchKindFrom` from check.go, given the sequence of observations of
its receive loop (one task per connected relay feeds the channel): the
initial best is `("", none)` — `bestURL` empty, `bestEvt` nil — and
`remaining` starts at the number of connected relays. -/
def fetchKindFrom (numRelays : Nat) (arrivals : List Arrival) :
    String × Option NostrEvent :=
  fetchLoop ("", none) numRelays arrivals

/-! ## Auxiliary definitions used by the proofs -/

/-- Whether an address is outbox-tagged (classified as purpose "outbox"). -/
def isOutboxURL (u : String) : Bool := classifyRelay u == "outbox"

/-- The number of outbox addresses the selection invariant predicts:
one once `hasOutbox` is set, zero before. -/
def outboxTally (hasOutbox : Bool) : Nat := if hasOutbox then 1 else 0

/-- An outbox-purpose candidate placed first in the sorted order. -/
def outboxCandidate : RelayScore :=
  { URL := "wss://purplepag.es", Reachable := true, LatencyMs := 50,
    Info := none, HasNIP11 := false, SupportsRead := true,
    SupportsWrite := true, AuthRequired := false, PaymentRequired := false,
    Score := 9/10, Purpose := "outbox", Issues := [] }

/-- A reachable, unpaid general candidate with score 0.8 ≥ 0.5. -/
def generalCandidate : RelayScore :=
  { URL := "wss://relay.damus.io", Reachable := true, LatencyMs := 80,
    Info := none, HasNIP11 := false, SupportsRead := true,
    SupportsWrite := true, AuthRequired := false, PaymentRequired := false,
    Score := 8/10, Purpose := "general", Issues := [] }

/-- The final clamp of `calculateRelayScore`: cap at 1.0, floor at 0.0. -/
def clamp01 (x : Rat) : Rat :=
  let y := if x > 1 then (1 : Rat) else x
  if y < 0 then 0 else y

/-- The score computed by `calculateRelayScore` for a reachable record
before the final clamp (the score component of the sequenced updates). -/
def scoreBeforeClamp (rs : RelayScore) : Rat :=
  let score : Rat := 5/10
  let score := if rs.HasNIP11 then score + 15/100 else score
  let score :=
    if rs.LatencyMs < 200 then score + 20/100
    else if rs.LatencyMs < 500 then score + 15/100
    else if rs.LatencyMs < 1000 then score + 10/100
    else if rs.LatencyMs < 2000 then score + 5/100
    else score
  let score := if rs.AuthRequired then score - 1/10 else score
  if rs.PaymentRequired then score - 1/10 else score

/-- A sample NIP-11 document used to exhibit a successful document fetch. -/
def sampleRelayInfo : RelayInfo :=
  { Name := "sample", Description := "", Pubkey := "", Contact := "",
    SupportedNIPs := [1, 11], Software := "", Version := "",
    Limitation := none, PaymentRequired := false }

/-- Whether a character list does not start with white space. -/
def noLeadingSpace (l : List Char) : Bool :=
  match l.head? with
  | none => true
  | some c => !isGoSpace c

/-- Whether a character list does not end with white space. -/
def noTrailingSpace (l : List Char) : Bool :=
  match l.getLast? with
  | none => true
  | some c => !isGoSpace c

/-! ## Resolver lemmas -/

/-- When every response arrives before the deadline, the receive loop is a
left fold of `updateBest` over the responses in arrival order. -/
theorem fetchLoop_map_resp (rs : List fetchResult) :
    ∀ best, fetchLoop best rs.length (rs.map .resp) = rs.foldl updateBest best := by
  induction rs with
  | nil => intro best; rfl
  | cons r rest ih =>
    intro best
    simp only [List.length_cons, List.map_cons, fetchLoop, List.foldl_cons]
    exact ih (updateBest best r)

/-- A response whose event's timestamp does not exceed the current best's
leaves the best unchanged. -/
theorem updateBest_stay (u : String) (b : NostrEvent) (r : fetchResult)
    (h : ∀ e', r.evt = some e' → e'.CreatedAt ≤ b.CreatedAt) :
    updateBest (u, some b) r = (u, some b) := by
  cases hevt : r.evt with
  | none => simp [updateBest, hevt]
  | some e' =>
    have hle := h e' hevt
    simp only [updateBest, hevt]
    rw [if_neg (by omega)]

/-- A run of responses none of which strictly beats the current best
leaves the best unchanged. -/
theorem foldl_updateBest_stay (l : List fetchResult) (u : String) (b : NostrEvent)
    (h : ∀ r ∈ l, ∀ e', r.evt = some e' → e'.CreatedAt ≤ b.CreatedAt) :
    l.foldl updateBest (u, some b) = (u, some b) := by
  induction l with
  | nil => rfl
  | cons r rest ih =>
    rw [List.foldl_cons, updateBest_stay u b r (h r (by simp))]
    exact ih (fun r' hr' => h r' (List.mem_cons_of_mem r hr'))

/-- A response carrying an event that strictly beats the current best
(or arriving when no best exists yet) becomes the new best. -/
theorem updateBest_take (acc : String × Option NostrEvent) (r : fetchResult)
    (e : NostrEvent) (hdoc : r.evt = some e)
    (hacc : acc.2 = none ∨ ∃ b, acc.2 = some b ∧ b.CreatedAt < e.CreatedAt) :
    updateBest acc r = (r.url, some e) := by
  obtain ⟨u, ob⟩ := acc
  rcases hacc with hnone | ⟨b, hb, hlt⟩
  · simp only at hnone
    subst hnone
    simp [updateBest, hdoc]
  · simp only at hb
    subst hb
    simp only [updateBest, hdoc]
    rw [if_pos hlt]

/-- Responses whose timestamps all lie strictly below `e.CreatedAt`
preserve the property that the best-so-far is absent or strictly below
`e.CreatedAt`. -/
theorem foldl_updateBest_below (e : NostrEvent) (l : List fetchResult) :
    ∀ acc : String × Option NostrEvent,
    (∀ r ∈ l, ∀ e', r.evt = some e' → e'.CreatedAt < e.CreatedAt) →
    (acc.2 = none ∨ ∃ b, acc.2 = some b ∧ b.CreatedAt < e.CreatedAt) →
    ((l.foldl updateBest acc).2 = none ∨
      ∃ b, (l.foldl updateBest acc).2 = some b ∧ b.CreatedAt < e.CreatedAt) := by
  induction l with
  | nil => intro acc _ hacc; exact hacc
  | cons r rest ih =>
    intro acc hl hacc
    rw [List.foldl_cons]
    refine ih (updateBest acc r) (fun r' hr' => hl r' (List.mem_cons_of_mem r hr')) ?_
    obtain ⟨u, ob⟩ := acc
    cases hevt : r.evt with
    | none => simpa [updateBest, hevt] using hacc
    | some e' =>
      have hlt := hl r (by simp) e' hevt
      cases ob with
      | none => exact Or.inr ⟨e', by simp [updateBest, hevt], hlt⟩
      | some b =>
        by_cases hgt : e'.CreatedAt > b.CreatedAt
        · exact Or.inr ⟨e', by simp [updateBest, hevt, hgt], hlt⟩
        · simp only [updateBest, hevt]
          rw [if_neg hgt]
          exact hacc

/-- Folding the responses reaches the unique strictly-maximal event: if
`r ∈ l` carries event `e` and every other event in `l` is strictly older
(or belongs to `r` itself), the fold returns `(r.url, some e)`. -/
theorem foldl_updateBest_reach (e : NostrEvent) (l : List fetchResult) :
    ∀ (r : fetchResult) (acc : String × Option NostrEvent),
    r ∈ l → r.evt = some e →
    (∀ r' ∈ l, ∀ e', r'.evt = some e' → r' = r ∨ e'.CreatedAt < e.CreatedAt) →
    (acc.2 = none ∨ ∃ b, acc.2 = some b ∧ b.CreatedAt < e.CreatedAt) →
    l.foldl updateBest acc = (r.url, some e) := by
  induction l with
  | nil => intro r acc hmem; exact absurd hmem (List.not_mem_nil r)
  | cons r0 rest ih =>
    intro r acc hmem hdoc hmax hacc
    by_cases h0 : r0 = r
    · subst h0
      rw [List.foldl_cons, updateBest_take acc r0 e hdoc hacc]
      refine foldl_updateBest_stay rest r0.url e (fun r' hr' e' he' => ?_)
      rcases hmax r' (List.mem_cons_of_mem r0 hr') e' he' with heq | hlt
      · subst heq
        rw [hdoc] at he'
        injection he' with h
        rw [h]
      · omega
    · have hmem' : r ∈ rest := by
        rcases List.mem_cons.mp hmem with heq | h
        · exact absurd heq.symm h0
        · exact h
      rw [List.foldl_cons]
      refine ih r (updateBest acc r0) hmem' hdoc
        (fun r' hr' => hmax r' (List.mem_cons_of_mem r0 hr')) ?_
      obtain ⟨u, ob⟩ := acc
      cases hevt : r0.evt with
      | none => simpa [updateBest, hevt] using hacc
      | some e0 =>
        have hlt : e0.CreatedAt < e.CreatedAt := by
          rcases hmax r0 (by simp) e0 hevt with heq | hlt
          · exact absurd heq h0
          · exact hlt
        cases ob with
        | none => exact Or.inr ⟨e0, by simp [updateBest, hevt], hlt⟩
        | some b =>
          by_cases hgt : e0.CreatedAt > b.CreatedAt
          · exact Or.inr ⟨e0, by simp [updateBest, hevt, hgt], hlt⟩
          · simp only [updateBest, hevt]
            rw [if_neg hgt]
            exact hacc

/-- Responses that carry no event never change the best. -/
theorem foldl_updateBest_none (l : List fetchResult)
    (h : ∀ r ∈ l, r.evt = none) :
    ∀ acc, l.foldl updateBest acc = acc := by
  induction l with
  | nil => intro acc; rfl
  | cons r rest ih =>
    intro acc
    have hr : r.evt = none := h r (by simp)
    rw [List.foldl_cons]
    have hstep : updateBest acc r = acc := by simp [updateBest, hr]
    rw [hstep]
    exact ih (fun r' hr' => h r' (List.mem_cons_of_mem r hr')) acc

/-- When the deadline fires while responses are still outstanding, the
loop returns the fold of the responses received so far and ignores
everything after the deadline. -/
theorem fetchLoop_deadline (pre : List fetchResult) :
    ∀ (n : Nat) (best : String × Option NostrEvent) (rest : List Arrival),
    pre.length < n →
    fetchLoop best n (pre.map .resp ++ .deadline :: rest) =
      pre.foldl updateBest best := by
  induction pre with
  | nil =>
    intro n best rest hn
    match n, hn with
    | m + 1, _ => rfl
  | cons r pre' ih =>
    intro n best rest hn
    match n, hn with
    | m + 1, hn =>
      simp only [List.map_cons, List.cons_append, fetchLoop, List.foldl_cons]
      exact ih m (updateBest best r) rest (by simpa using hn)

/-! ## Claim theorems: resolver -/

/-- C1: for a fixed set of connected peers whose responses all arrive
before the deadline and whose documents carry pairwise-distinct
timestamps, `fetchKindFrom` returns the document with the greatest
timestamp together with its source peer, and the result is the same for
every arrival order: for every arrival-order permutation `arrivals` of
the response set `rs`, the loop returns `(r.url, some e)` where `r` is
the response whose document `e` has the strictly greatest timestamp. -/
theorem fetchKindFrom_newest_wins (rs arrivals : List fetchResult)
    (r : fetchResult) (e : NostrEvent)
    (hperm : List.Perm arrivals rs) (hmem : r ∈ rs) (hdoc : r.evt = some e)
    (hmax : ∀ r' ∈ rs, ∀ e', r'.evt = some e' → r' = r ∨ e'.CreatedAt < e.CreatedAt) :
    fetchKindFrom arrivals.length (arrivals.map .resp) = (r.url, some e) := by
  rw [fetchKindFrom, fetchLoop_map_resp]
  exact foldl_updateBest_reach e arrivals r ("", none)
    (hperm.mem_iff.mpr hmem) hdoc
    (fun r' hr' => hmax r' (hperm.mem_iff.mp hr'))
    (Or.inl rfl)

/-- C1 witness: three peers answer with timestamps 10, 30 and 20; in the
arrival order 20, 10, 30 the resolver returns the timestamp-30 peer's
document. -/
theorem fetchKindFrom_newest_wins_witness :
    fetchKindFrom 3
      [Arrival.resp ⟨"wss://c", some ⟨20, "doc20"⟩⟩,
       Arrival.resp ⟨"wss://a", some ⟨10, "doc10"⟩⟩,
       Arrival.resp ⟨"wss://b", some ⟨30, "doc30"⟩⟩] =
      ("wss://b", some ⟨30, "doc30"⟩) := by
  have h := fetchKindFrom_newest_wins
    [⟨"wss://a", some ⟨10, "doc10"⟩⟩, ⟨"wss://b", some ⟨30, "doc30"⟩⟩,
     ⟨"wss://c", some ⟨20, "doc20"⟩⟩]
    [⟨"wss://c", some ⟨20, "doc20"⟩⟩, ⟨"wss://a", some ⟨10, "doc10"⟩⟩,
     ⟨"wss://b", some ⟨30, "doc30"⟩⟩]
    ⟨"wss://b", some ⟨30, "doc30"⟩⟩ ⟨30, "doc30"⟩
    (by decide) (by decide) rfl
    (by
      intro r' hr' e' he'
      simp only [List.mem_cons, List.not_mem_nil, or_false] at hr'
      rcases hr' with rfl | rfl | rfl <;>
        (injection he' with h'; subst h') <;> simp)
  exact h

/-- C7: if no peer delivers a document before the deadline the resolver
returns the absent result `("", none)` rather than an error; and when the
deadline fires while peers are still outstanding, it returns the
best-so-far fold of the responses received before the deadline, ignoring
everything after it — also a normal return, not an error. -/
theorem fetchKindFrom_absent_and_deadline :
    (∀ rs : List fetchResult, (∀ r ∈ rs, r.evt = none) →
      fetchKindFrom rs.length (rs.map .resp) = ("", none)) ∧
    (∀ (pre : List fetchResult) (rest : List Arrival) (n : Nat),
      pre.length < n →
      fetchKindFrom n (pre.map .resp ++ .deadline :: rest) =
        pre.foldl updateBest ("", none)) := by
  constructor
  · intro rs h
    rw [fetchKindFrom, fetchLoop_map_resp]
    exact foldl_updateBest_none rs h ("", none)
  · intro pre rest n hn
    rw [fetchKindFrom]
    exact fetchLoop_deadline pre n ("", none) rest hn

/-- C7 witness: two silent peers yield the absent result, and a deadline
firing after one of three responses returns the best seen so far. -/
theorem fetchKindFrom_absent_and_deadline_witness :
    fetchKindFrom 2
      [Arrival.resp ⟨"wss://a", none⟩, Arrival.resp ⟨"wss://b", none⟩] =
      ("", none) ∧
    fetchKindFrom 3
      [Arrival.resp ⟨"wss://a", some ⟨10, "doc10"⟩⟩, Arrival.deadline,
       Arrival.resp ⟨"wss://b", some ⟨30, "doc30"⟩⟩] =
      ("wss://a", some ⟨10, "doc10"⟩) := by
  constructor
  · exact fetchKindFrom_absent_and_deadline.1
      [⟨"wss://a", none⟩, ⟨"wss://b", none⟩] (by decide)
  · exact fetchKindFrom_absent_and_deadline.2
      [⟨"wss://a", some ⟨10, "doc10"⟩⟩]
      [Arrival.resp ⟨"wss://b", some ⟨30, "doc30"⟩⟩] 3 (by decide)

/-- C10: when responses carry equal timestamps the resolver keeps the one
it observed first: the comparison is strictly-greater, so if `r` is the
first arrival among the maximal-timestamp responses (everything before it
is strictly older, everything after it is no newer), the returned source
peer and document are `r`'s. -/
theorem fetchKindFrom_tie_first_received (l1 l2 : List fetchResult)
    (r : fetchResult) (e : NostrEvent) (hdoc : r.evt = some e)
    (h1 : ∀ r' ∈ l1, ∀ e', r'.evt = some e' → e'.CreatedAt < e.CreatedAt)
    (h2 : ∀ r' ∈ l2, ∀ e', r'.evt = some e' → e'.CreatedAt ≤ e.CreatedAt) :
    fetchKindFrom (l1 ++ r :: l2).length ((l1 ++ r :: l2).map .resp) =
      (r.url, some e) := by
  rw [fetchKindFrom, fetchLoop_map_resp, List.foldl_append, List.foldl_cons]
  have hb := foldl_updateBest_below e l1 ("", none) h1 (Or.inl rfl)
  have hupd : updateBest (l1.foldl updateBest ("", none)) r = (r.url, some e) :=
    updateBest_take _ r e hdoc hb
  rw [hupd]
  exact foldl_updateBest_stay l2 r.url e h2

/-- C10 witness: two peers respond with the same timestamp 100; the
resolver returns the first-received peer's document. -/
theorem fetchKindFrom_tie_first_received_witness :
    fetchKindFrom 2
      [Arrival.resp ⟨"wss://first", some ⟨100, "docA"⟩⟩,
       Arrival.resp ⟨"wss://second", some ⟨100, "docB"⟩⟩] =
      ("wss://first", some ⟨100, "docA"⟩) := by
  have h := fetchKindFrom_tie_first_received []
    [⟨"wss://second", some ⟨100, "docB"⟩⟩]
    ⟨"wss://first", some ⟨100, "docA"⟩⟩ ⟨100, "docA"⟩ rfl
    (by intro r' hr'; exact absurd hr' (List.not_mem_nil r'))
    (by
      intro r' hr' e' he'
      simp only [List.mem_cons, List.not_mem_nil, or_false] at hr'
      subst hr'
      injection he' with h'
      subst h'
      simp)
  exact h

/-! ## Selector lemmas -/

/-- Invariant of the selection walk: provided every candidate's recorded
purpose agrees with the classification of its URL (as `ScoreRelay`
guarantees), the number of outbox-classified addresses in `selected`
always equals one when `hasOutbox` is set and zero otherwise. -/
theorem selectLoop_outbox_count (mc : Int) (cs : List RelayScore) :
    ∀ (selected : List String) (hasOutbox : Bool),
    (∀ c ∈ cs, c.Purpose = classifyRelay c.URL) →
    selected.countP isOutboxURL = outboxTally hasOutbox →
    (selectLoop mc cs selected hasOutbox).1.countP isOutboxURL =
      outboxTally (selectLoop mc cs selected hasOutbox).2 := by
  induction cs with
  | nil => intro selected hasOutbox _ hinv; exact hinv
  | cons c rest ih =>
    intro selected hasOutbox hwf hinv
    have hwfc : c.Purpose = classifyRelay c.URL := hwf c (by simp)
    have hwfr : ∀ c' ∈ rest, c'.Purpose = classifyRelay c'.URL :=
      fun c' hc' => hwf c' (List.mem_cons_of_mem c hc')
    simp only [selectLoop]
    split_ifs with h1 h2 h3 h4 h5 h6 h7
    · exact hinv
    · exact ih selected hasOutbox hwfr hinv
    · exact ih selected hasOutbox hwfr hinv
    · exact ih selected hasOutbox hwfr hinv
    · -- outbox candidate, none selected yet: include it
      refine ih (selected ++ [c.URL]) true hwfr ?_
      have hout : isOutboxURL c.URL = true := by
        simp [isOutboxURL, ← hwfc, h5]
      rw [h6] at hinv
      simp only [outboxTally, if_neg Bool.false_ne_true] at hinv
      simp [List.countP_append, List.countP_cons, hout, hinv, outboxTally]
    · exact ih selected hasOutbox hwfr hinv
    · -- general candidate with sufficient score: include it
      refine ih (selected ++ [c.URL]) hasOutbox hwfr ?_
      have hout : isOutboxURL c.URL = false := by
        simp [isOutboxURL, ← hwfc]
        exact h5
      simp [List.countP_append, List.countP_cons, hout, hinv]
    · exact ih selected hasOutbox hwfr hinv

/-- The selection walk never grows `selected` beyond `maxCount`: the
break fires as soon as the total reaches the cap, outbox entry included. -/
theorem selectLoop_length_le (mc : Int) (cs : List RelayScore) :
    ∀ (selected : List String) (hasOutbox : Bool),
    (selected.length : Int) ≤ mc →
    ((selectLoop mc cs selected hasOutbox).1.length : Int) ≤ mc := by
  induction cs with
  | nil => intro selected hasOutbox h; exact h
  | cons c rest ih =>
    intro selected hasOutbox hlen
    simp only [selectLoop]
    split_ifs with h1 h2 h3 h4 h5 h6 h7
    · exact hlen
    · exact ih selected hasOutbox hlen
    · exact ih selected hasOutbox hlen
    · exact ih selected hasOutbox hlen
    · refine ih (selected ++ [c.URL]) true ?_
      push_cast [List.length_append, List.length_singleton]
      omega
    · exact ih selected hasOutbox hlen
    · refine ih (selected ++ [c.URL]) hasOutbox ?_
      push_cast [List.length_append, List.length_singleton]
      omega
    · exact ih selected hasOutbox hlen

/-! ## Claim theorems: selector -/

/-- C3: provided every candidate's recorded purpose matches the
classification of its address (as the records produced by `ScoreRelay`
do), the output of `SelectRelays` contains exactly one outbox-tagged
address — the first reachable, non-paid outbox candidate when one is
selected, and the appended purplepag.es fallback otherwise; in
particular at least one outbox address is present even when no outbox
candidate exists. -/
theorem SelectRelays_exactly_one_outbox (candidates : List RelayScore)
    (maxCount : Int)
    (hwf : ∀ c ∈ candidates, c.Purpose = classifyRelay c.URL) :
    (SelectRelays candidates maxCount).countP isOutboxURL = 1 := by
  simp only [SelectRelays]
  have h := selectLoop_outbox_count (if maxCount ≤ 0 then 5 else maxCount)
    candidates [] false hwf (by simp [outboxTally])
  cases hOut : (selectLoop (if maxCount ≤ 0 then 5 else maxCount) candidates [] false).2 with
  | false =>
    rw [hOut] at h
    simp only [outboxTally, if_neg Bool.false_ne_true] at h
    simp only [hOut, if_pos rfl]
    have hpp : isOutboxURL "wss://purplepag.es" = true := by decide
    simp [List.countP_append, List.countP_cons, hpp, h]
  | true =>
    rw [hOut] at h
    simp only [outboxTally, if_pos rfl] at h
    simpa [hOut] using h

/-- C3 witness: the spec scenario — outbox at 0.9, generals at 0.7, 0.6
and 0.3, one unreachable — yields exactly one outbox-tagged address. -/
theorem SelectRelays_exactly_one_outbox_witness :
    (SelectRelays
      [{ URL := "wss://purplepag.es", Reachable := true, LatencyMs := 50,
         Info := none, HasNIP11 := false, SupportsRead := true,
         SupportsWrite := true, AuthRequired := false,
         PaymentRequired := false, Score := 9/10, Purpose := "outbox",
         Issues := [] },
       { URL := "wss://relay.damus.io", Reachable := true, LatencyMs := 80,
         Info := none, HasNIP11 := false, SupportsRead := true,
         SupportsWrite := true, AuthRequired := false,
         PaymentRequired := false, Score := 7/10, Purpose := "general",
         Issues := [] },
       { URL := "wss://nos.lol", Reachable := true, LatencyMs := 120,
         Info := none, HasNIP11 := false, SupportsRead := true,
         SupportsWrite := true, AuthRequired := false,
         PaymentRequired := false, Score := 6/10, Purpose := "general",
         Issues := [] },
       { URL := "wss://slow.example", Reachable := true, LatencyMs := 2500,
         Info := none, HasNIP11 := false, SupportsRead := true,
         SupportsWrite := true, AuthRequired := false,
         PaymentRequired := false, Score := 3/10, Purpose := "general",
         Issues := [] },
       { URL := "wss://dead.example", Reachable := false, LatencyMs := 0,
         Info := none, HasNIP11 := false, SupportsRead := false,
         SupportsWrite := false, AuthRequired := false,
         PaymentRequired := false, Score := 0, Purpose := "general",
         Issues := [] }] 3).countP isOutboxURL = 1 :=
  SelectRelays_exactly_one_outbox _ 3 (by decide)

/-- C4 counterexample: with `maxCount = 1` the selected outbox peer
consumes the whole cap — the loop breaks before reaching an eligible
(reachable, unpaid, score ≥ 0.5) general candidate, which the claim says
should be included in addition to the outbox peer. -/
theorem SelectRelays_outbox_displaces_general :
    SelectRelays [outboxCandidate, generalCandidate] 1 =
      ["wss://purplepag.es"] ∧
    generalCandidate.Reachable = true ∧
    generalCandidate.PaymentRequired = false ∧
    generalCandidate.Purpose = "general" ∧
    (5/10 : Rat) ≤ generalCandidate.Score ∧
    generalCandidate.URL ∉ SelectRelays [outboxCandidate, generalCandidate] 1 := by
  have hsel : SelectRelays [outboxCandidate, generalCandidate] 1 =
      ["wss://purplepag.es"] := rfl
  refine ⟨hsel, rfl, rfl, rfl, ?_, ?_⟩
  · show (5/10 : Rat) ≤ 8/10
    norm_num
  · rw [hsel]
    decide

/-- C4 (amended): an included outbox candidate does count against the
`maxCount` cap — the walk breaks as soon as the total number selected,
outbox entry included, reaches `maxCount` (default 5 when `maxCount ≤ 0`),
so selecting the outbox peer can displace the last otherwise-eligible
general peer; only the unconditional fallback append may exceed the cap,
by one. -/
theorem SelectRelays_cap_counts_outbox (candidates : List RelayScore)
    (maxCount : Int) :
    ((selectLoop (if maxCount ≤ 0 then 5 else maxCount) candidates [] false).1.length : Int) ≤
      (if maxCount ≤ 0 then 5 else maxCount) ∧
    ((SelectRelays candidates maxCount).length : Int) ≤
      (if maxCount ≤ 0 then 5 else maxCount) + 1 := by
  have h0 : ((([] : List String)).length : Int) ≤ (if maxCount ≤ 0 then 5 else maxCount) := by
    have hz : ((([] : List String)).length : Int) = 0 := by simp
    rw [hz]
    split_ifs <;> omega
  have hlen := selectLoop_length_le (if maxCount ≤ 0 then 5 else maxCount)
    candidates [] false h0
  refine ⟨hlen, ?_⟩
  simp only [SelectRelays]
  cases hOut : (selectLoop (if maxCount ≤ 0 then 5 else maxCount) candidates [] false).2 with
  | false =>
    rw [if_pos rfl]
    push_cast [List.length_append, List.length_singleton]
    omega
  | true =>
    rw [if_neg (by decide : ¬(true = false))]
    omega

/-! ## Scorer lemmas -/

theorem clamp01_bounds (x : Rat) : 0 ≤ clamp01 x ∧ clamp01 x ≤ 1 := by
  simp only [clamp01]
  split_ifs <;> constructor <;> linarith

theorem clamp01_mono {x y : Rat} (h : x ≤ y) : clamp01 x ≤ clamp01 y := by
  simp only [clamp01]
  split_ifs <;> linarith

/-- The score of a reachable record is the clamped pre-clamp score. -/
theorem calculateRelayScore_fst_reachable (rs : RelayScore)
    (hr : rs.Reachable = true) :
    (calculateRelayScore rs).1 = clamp01 (scoreBeforeClamp rs) := by
  have hne : ¬(rs.Reachable = false) := by simp [hr]
  simp only [calculateRelayScore, if_neg hne]
  rfl

/-- The score of an unreachable record is 0. -/
theorem calculateRelayScore_fst_unreachable (rs : RelayScore)
    (hr : rs.Reachable = false) :
    (calculateRelayScore rs).1 = 0 := by
  simp [calculateRelayScore, hr]

set_option maxHeartbeats 1000000 in
/-- The pre-clamp score is non-increasing in latency, all other fields
fixed. -/
theorem scoreBeforeClamp_latency_antitone (rs : RelayScore) (l1 l2 : Int)
    (h : l1 ≤ l2) :
    scoreBeforeClamp { rs with LatencyMs := l2 } ≤
      scoreBeforeClamp { rs with LatencyMs := l1 } := by
  simp only [scoreBeforeClamp]
  dsimp only
  split_ifs <;> first | omega | norm_num

/-! ## Claim theorems: scorer and prober -/

/-- C8: `calculateRelayScore` is monotonic non-increasing in latency with
all other record fields fixed — a lower latency never yields a lower
score. -/
theorem calculateRelayScore_latency_antitone (rs : RelayScore) (l1 l2 : Int)
    (h : l1 ≤ l2) :
    (calculateRelayScore { rs with LatencyMs := l2 }).1 ≤
      (calculateRelayScore { rs with LatencyMs := l1 }).1 := by
  by_cases hr : rs.Reachable = true
  · rw [calculateRelayScore_fst_reachable { rs with LatencyMs := l2 } hr,
        calculateRelayScore_fst_reachable { rs with LatencyMs := l1 } hr]
    exact clamp01_mono (scoreBeforeClamp_latency_antitone rs l1 l2 h)
  · have hr' : rs.Reachable = false := by
      cases hb : rs.Reachable
      · rfl
      · exact absurd hb hr
    rw [calculateRelayScore_fst_unreachable { rs with LatencyMs := l2 } hr',
        calculateRelayScore_fst_unreachable { rs with LatencyMs := l1 } hr']

/-- C8 witness: a 100ms record scores at least as high as the identical
700ms record. -/
theorem calculateRelayScore_latency_antitone_witness :
    (calculateRelayScore
      { URL := "wss://relay.damus.io", Reachable := true, LatencyMs := 700,
        Info := none, HasNIP11 := true, SupportsRead := true,
        SupportsWrite := true, AuthRequired := false,
        PaymentRequired := false, Score := 0, Purpose := "general",
        Issues := [] }).1 ≤
    (calculateRelayScore
      { URL := "wss://relay.damus.io", Reachable := true, LatencyMs := 100,
        Info := none, HasNIP11 := true, SupportsRead := true,
        SupportsWrite := true, AuthRequired := false,
        PaymentRequired := false, Score := 0, Purpose := "general",
        Issues := [] }).1 :=
  calculateRelayScore_latency_antitone
    { URL := "wss://relay.damus.io", Reachable := true, LatencyMs := 0,
      Info := none, HasNIP11 := true, SupportsRead := true,
      SupportsWrite := true, AuthRequired := false,
      PaymentRequired := false, Score := 0, Purpose := "general",
      Issues := [] } 100 700 (by norm_num)

/-- C2 (amended): the record returned by `ScoreRelay` always has score in
[0.0, 1.0], and whenever the session test failed (`Reachable = false`) the
score is exactly 0.0; the capability document field, however, may still be
present in that case (the NIP-11 fetch succeeds independently of the
session test, as the counterexample shows). -/
theorem ScoreRelay_score_range_unreachable_zero (relayURL : String)
    (nip11 : Option (RelayInfo × Int)) (canConnect : Bool) (wsLatencyMs : Int) :
    0 ≤ (ScoreRelay relayURL nip11 canConnect wsLatencyMs).Score ∧
    (ScoreRelay relayURL nip11 canConnect wsLatencyMs).Score ≤ 1 ∧
    ((ScoreRelay relayURL nip11 canConnect wsLatencyMs).Reachable = false →
      (ScoreRelay relayURL nip11 canConnect wsLatencyMs).Score = 0) := by
  have hS : (ScoreRelay relayURL nip11 canConnect wsLatencyMs).Score =
      (calculateRelayScore (scoreRelayRecord relayURL nip11 canConnect wsLatencyMs)).1 := rfl
  have hR : (ScoreRelay relayURL nip11 canConnect wsLatencyMs).Reachable =
      (scoreRelayRecord relayURL nip11 canConnect wsLatencyMs).Reachable := rfl
  rw [hS, hR]
  cases hr : (scoreRelayRecord relayURL nip11 canConnect wsLatencyMs).Reachable with
  | false =>
    rw [calculateRelayScore_fst_unreachable _ hr]
    exact ⟨le_refl 0, by norm_num, fun _ => rfl⟩
  | true =>
    rw [calculateRelayScore_fst_reachable _ hr]
    obtain ⟨h0, h1⟩ := clamp01_bounds
      (scoreBeforeClamp (scoreRelayRecord relayURL nip11 canConnect wsLatencyMs))
    exact ⟨h0, h1, fun hfalse => absurd hfalse (by simp)⟩

/-- C2 witness: a relay whose session test fails receives score exactly 0
(and the score bounds hold there). -/
theorem ScoreRelay_score_range_unreachable_zero_witness :
    (ScoreRelay "wss://dead.example" none false 0).Score = 0 :=
  (ScoreRelay_score_range_unreachable_zero "wss://dead.example" none false 0).2.2 rfl

/-- C2 counterexample: when the NIP-11 fetch succeeds but the WebSocket
session test fails, `ScoreRelay` returns a record with `Reachable = false`
and score 0 whose capability document field is still present — refuting
"unreachable ⇒ no capability document". -/
theorem ScoreRelay_unreachable_with_document :
    (ScoreRelay "wss://x.example" (some (sampleRelayInfo, 100)) false 0).Reachable = false ∧
    (ScoreRelay "wss://x.example" (some (sampleRelayInfo, 100)) false 0).Info =
      some sampleRelayInfo ∧
    (ScoreRelay "wss://x.example" (some (sampleRelayInfo, 100)) false 0).Score = 0 := by
  refine ⟨rfl, rfl, rfl⟩

/-- C6: for every relay URL and probe outcome, the record returned by
`ScoreRelay` has an empty issues list: the issue strings are computed on
`calculateRelayScore`'s by-value copy, whose issue component the caller
discards, so they never reach the returned record. -/
theorem ScoreRelay_issues_empty (relayURL : String)
    (nip11 : Option (RelayInfo × Int)) (canConnect : Bool) (wsLatencyMs : Int) :
    (ScoreRelay relayURL nip11 canConnect wsLatencyMs).Issues = [] := by
  have hI : (ScoreRelay relayURL nip11 canConnect wsLatencyMs).Issues =
      (scoreRelayRecord relayURL nip11 canConnect wsLatencyMs).Issues := rfl
  rw [hI]
  rcases nip11 with _ | ⟨info, lat⟩
  · cases canConnect <;> simp [scoreRelayRecord]
  · rcases hL : info.Limitation with _ | lim <;> cases canConnect <;>
      simp [scoreRelayRecord, hL] <;> split_ifs <;> rfl

/-! ## Normalization lemmas -/

theorem noLeadingSpace_forall (l : List Char) (h : noLeadingSpace l = true) :
    ∀ c ∈ l.head?, isGoSpace c = false := by
  intro c hc
  cases hl : l.head? with
  | none => rw [hl] at hc; cases hc
  | some d =>
    rw [hl] at hc
    have hcd : d = c := by simpa using hc
    subst hcd
    unfold noLeadingSpace at h
    rw [hl] at h
    simpa using h

theorem noTrailingSpace_forall (l : List Char) (h : noTrailingSpace l = true) :
    ∀ c ∈ l.getLast?, isGoSpace c = false := by
  intro c hc
  cases hl : l.getLast? with
  | none => rw [hl] at hc; cases hc
  | some d =>
    rw [hl] at hc
    have hcd : d = c := by simpa using hc
    subst hcd
    unfold noTrailingSpace at h
    rw [hl] at h
    simpa using h

theorem dropWhile_eq_self_of_head (p : Char → Bool) (l : List Char)
    (h : ∀ c ∈ l.head?, p c = false) : l.dropWhile p = l := by
  cases l with
  | nil => rfl
  | cons c t =>
    have hc : p c = false := h c rfl
    simp [List.dropWhile_cons, hc]

theorem trimRightChars_append_of_pos (p : Char → Bool) (x y : List Char)
    (h : ∀ c ∈ y, p c = true) :
    trimRightChars p (x ++ y) = trimRightChars p x := by
  unfold trimRightChars
  rw [List.reverse_append,
    List.dropWhile_append_of_pos (fun c hc => h c (List.mem_reverse.mp hc))]

theorem trimRightChars_eq_self (p : Char → Bool) (l : List Char)
    (h : ∀ c ∈ l.getLast?, p c = false) : trimRightChars p l = l := by
  unfold trimRightChars
  rw [dropWhile_eq_self_of_head p l.reverse
    (by rw [List.head?_reverse]; exact h), List.reverse_reverse]

theorem head?_dropWhile_false (p : Char → Bool) (l : List Char) :
    ∀ c ∈ (l.dropWhile p).head?, p c = false := by
  induction l with
  | nil => intro c hc; cases hc
  | cons a t ih =>
    intro c hc
    rw [List.dropWhile_cons] at hc
    by_cases ha : p a = true
    · rw [if_pos ha] at hc
      exact ih c hc
    · rw [if_neg ha] at hc
      have hca : a = c := by simpa using hc
      subst hca
      simpa using ha

theorem getLast?_trimRightChars_false (p : Char → Bool) (l : List Char) :
    ∀ c ∈ (trimRightChars p l).getLast?, p c = false := by
  intro c hc
  unfold trimRightChars at hc
  rw [List.getLast?_reverse] at hc
  exact head?_dropWhile_false p l.reverse c hc

theorem trimRightChars_idem (p : Char → Bool) (l : List Char) :
    trimRightChars p (trimRightChars p l) = trimRightChars p l :=
  trimRightChars_eq_self p _ (getLast?_trimRightChars_false p l)

theorem trimRightChars_eq_nil (p : Char → Bool) (l : List Char)
    (h : ∀ c ∈ l, p c = true) : trimRightChars p l = [] := by
  unfold trimRightChars
  have hd : l.reverse.dropWhile p = [] :=
    List.dropWhile_eq_nil_iff.mpr (fun c hc => h c (List.mem_reverse.mp hc))
  rw [hd]
  rfl

theorem trimSpace_eq_self (l : List Char)
    (hhead : ∀ c ∈ l.head?, isGoSpace c = false)
    (hlast : ∀ c ∈ l.getLast?, isGoSpace c = false) :
    trimSpace l = l := by
  unfold trimSpace trimLeftChars
  rw [dropWhile_eq_self_of_head isGoSpace l hhead]
  exact trimRightChars_eq_self isGoSpace l hlast

/-- A list with a recognized transport prefix starts with 'w'. -/
theorem head?_of_transport (v : List Char)
    (h : ("wss://".toList.isPrefixOf v || "ws://".toList.isPrefixOf v) = true) :
    v.head? = some 'w' := by
  rcases Bool.or_eq_true_iff.mp h with h1 | h1
  all_goals
    obtain ⟨t, ht⟩ := List.isPrefixOf_iff_prefix.mp h1
    subst ht
    rfl

/-- `normalizeRelayChars` either discards its input or returns the
slash-stripped trimmed input, which then carries a transport prefix. -/
theorem normalizeRelayChars_spec (u : List Char) :
    normalizeRelayChars u = [] ∨
    (normalizeRelayChars u = trimRightChars (fun c => c = '/') (trimSpace u) ∧
      ("wss://".toList.isPrefixOf (normalizeRelayChars u) ||
       "ws://".toList.isPrefixOf (normalizeRelayChars u)) = true) := by
  simp only [normalizeRelayChars]
  by_cases hp : ("wss://".toList.isPrefixOf (trimRightChars (fun c => c = '/') (trimSpace u)) ||
      "ws://".toList.isPrefixOf (trimRightChars (fun c => c = '/') (trimSpace u))) = true
  · right
    rw [if_pos hp]
    exact ⟨rfl, hp⟩
  · left
    rw [if_neg hp]

/-- Idempotence of normalization holds whenever the first pass's output
has no trailing white space. -/
theorem normalizeRelayChars_idem (u : List Char)
    (h : noTrailingSpace (normalizeRelayChars u) = true) :
    normalizeRelayChars (normalizeRelayChars u) = normalizeRelayChars u := by
  rcases normalizeRelayChars_spec u with hnil | ⟨heq, hp⟩
  · rw [hnil]
    rfl
  · set v := normalizeRelayChars u with hv
    have hheadF : ∀ c ∈ v.head?, isGoSpace c = false := by
      intro c hc
      rw [head?_of_transport v hp] at hc
      have hcw : 'w' = c := by simpa using hc
      rw [← hcw]
      decide
    have hlastF : ∀ c ∈ v.getLast?, isGoSpace c = false :=
      noTrailingSpace_forall v h
    have htrim : trimSpace v = v := trimSpace_eq_self v hheadF hlastF
    have hslash : trimRightChars (fun c => c = '/') v = v := by
      conv_lhs => rw [heq]
      rw [trimRightChars_idem]
      exact heq.symm
    show normalizeRelayChars v = v
    simp only [normalizeRelayChars]
    rw [htrim, hslash, if_pos hp]

/-- Addresses differing from a space-free core `u` only by surrounding
white space and trailing slashes normalize identically with `u`. -/
theorem normalizeRelayChars_surround_invariant (u ws1 sl ws2 : List Char)
    (hws1 : ∀ c ∈ ws1, isGoSpace c = true)
    (hws2 : ∀ c ∈ ws2, isGoSpace c = true)
    (hsl : ∀ c ∈ sl, c = '/')
    (hlead : noLeadingSpace u = true)
    (htrail : noTrailingSpace u = true) :
    normalizeRelayChars (ws1 ++ (u ++ (sl ++ ws2))) = normalizeRelayChars u := by
  have hheadF := noLeadingSpace_forall u hlead
  have hlastF := noTrailingSpace_forall u htrail
  have htrimu : trimSpace u = u := trimSpace_eq_self u hheadF hlastF
  have hslB : ∀ c ∈ sl, decide (c = '/') = true := by
    intro c hc
    simp [hsl c hc]
  have hcore : trimRightChars (fun c => c = '/') (trimSpace (ws1 ++ (u ++ (sl ++ ws2)))) =
      trimRightChars (fun c => c = '/') (trimSpace u) := by
    rw [htrimu]
    unfold trimSpace trimLeftChars
    rw [List.dropWhile_append_of_pos hws1]
    rcases u with _ | ⟨c, u'⟩
    · simp only [List.nil_append]
      rcases sl with _ | ⟨d, sl'⟩
      · simp only [List.nil_append]
        have h2 : ws2.dropWhile isGoSpace = [] :=
          List.dropWhile_eq_nil_iff.mpr (fun c hc => hws2 c hc)
        rw [h2]
        rfl
      · have hd : d = '/' := hsl d (by simp)
        simp only [List.cons_append]
        have hstep : (d :: (sl' ++ ws2)).dropWhile isGoSpace = d :: (sl' ++ ws2) := by
          apply dropWhile_eq_self_of_head
          intro x hx
          have hdx : d = x := by simpa using hx
          rw [← hdx, hd]
          decide
        rw [hstep, ← List.cons_append, trimRightChars_append_of_pos _ _ _ hws2]
        have hlast' : ∀ x ∈ (d :: sl').getLast?, isGoSpace x = false := by
          intro x hx
          have hxmem : x ∈ d :: sl' := List.mem_of_getLast?_eq_some hx
          rw [hsl x hxmem]
          decide
        rw [trimRightChars_eq_self _ _ hlast']
        rw [trimRightChars_eq_nil _ _ (fun x hx => hslB x hx)]
        rfl
    · have hc : isGoSpace c = false := hheadF c rfl
      simp only [List.cons_append]
      have hstep : (c :: (u' ++ (sl ++ ws2))).dropWhile isGoSpace =
          c :: (u' ++ (sl ++ ws2)) := by
        apply dropWhile_eq_self_of_head
        intro x hx
        have hcx : c = x := by simpa using hx
        rw [← hcx]
        exact hc
      rw [hstep]
      rcases sl with _ | ⟨d, sl'⟩
      · simp only [List.nil_append]
        rw [← List.cons_append, trimRightChars_append_of_pos _ _ _ hws2,
          trimRightChars_eq_self _ _ hlastF]
      · have hd : d = '/' := hsl d (by simp)
        rw [← List.cons_append, ← List.append_assoc,
          trimRightChars_append_of_pos _ _ _ hws2]
        have hlast' : ∀ x ∈ ((c :: u') ++ (d :: sl')).getLast?, isGoSpace x = false := by
          intro x hx
          rw [List.getLast?_append_of_ne_nil (c :: u') (List.cons_ne_nil d sl')] at hx
          have hxmem : x ∈ d :: sl' := List.mem_of_getLast?_eq_some hx
          rw [hsl x hxmem]
          decide
        rw [trimRightChars_eq_self _ _ hlast',
          trimRightChars_append_of_pos _ _ _ (fun x hx => hslB x hx)]
  simp only [normalizeRelayChars]
  rw [hcore]

/-! ## Claim theorems: normalization -/

/-- C9 counterexample: normalization is not idempotent — on the input
"wss://a /" one pass strips the trailing slash and exposes a trailing
space ("wss://a "), which a second pass removes, so the two passes
disagree. -/
theorem normalizeRelayURL_not_idempotent :
    normalizeRelayURL (normalizeRelayURL "wss://a /") ≠
      normalizeRelayURL "wss://a /" := by
  decide

/-- C9 (amended): normalization is idempotent for every input whose first
normalization pass leaves no trailing white space (in particular for all
inputs with no white-space character left-adjacent to the trailing slash
run); any two addresses differing from a common space-free core only by
surrounding white space and trailing slashes normalize to the same string
and so tally as one candidate; and every address without a recognized
transport prefix normalizes to the empty string and is discarded (every
non-empty output carries a "wss://" or "ws://" prefix). -/
theorem normalizeRelayURL_amended :
    (∀ u : String, noTrailingSpace (normalizeRelayURL u).toList = true →
      normalizeRelayURL (normalizeRelayURL u) = normalizeRelayURL u) ∧
    (∀ (u ws1 sl ws2 : List Char),
      (∀ c ∈ ws1, isGoSpace c = true) → (∀ c ∈ ws2, isGoSpace c = true) →
      (∀ c ∈ sl, c = '/') → noLeadingSpace u = true → noTrailingSpace u = true →
      normalizeRelayURL ⟨ws1 ++ (u ++ (sl ++ ws2))⟩ = normalizeRelayURL ⟨u⟩) ∧
    (∀ u : String, normalizeRelayURL u = "" ∨
      ("wss://".toList.isPrefixOf (normalizeRelayURL u).toList ||
       "ws://".toList.isPrefixOf (normalizeRelayURL u).toList) = true) := by
  refine ⟨?_, ?_, ?_⟩
  · intro u h
    exact congrArg String.mk (normalizeRelayChars_idem u.toList h)
  · intro u ws1 sl ws2 hws1 hws2 hsl hlead htrail
    exact congrArg String.mk
      (normalizeRelayChars_surround_invariant u ws1 sl ws2 hws1 hws2 hsl hlead htrail)
  · intro u
    rcases normalizeRelayChars_spec u.toList with hnil | ⟨_, hp⟩
    · exact Or.inl (congrArg String.mk hnil)
    · exact Or.inr hp

/-- C9 witness: idempotence at "  wss://nos.lol//  ", invariance of the
surrounded form of "wss://nos.lol", and the discard disjunction at
"https://example.com". -/
theorem normalizeRelayURL_amended_witness :
    normalizeRelayURL (normalizeRelayURL "  wss://nos.lol//  ") =
      normalizeRelayURL "  wss://nos.lol//  " ∧
    normalizeRelayURL "  wss://nos.lol//  " = normalizeRelayURL "wss://nos.lol" ∧
    (normalizeRelayURL "https://example.com" = "" ∨
      ("wss://".toList.isPrefixOf (normalizeRelayURL "https://example.com").toList ||
       "ws://".toList.isPrefixOf (normalizeRelayURL "https://example.com").toList) = true) := by
  refine ⟨normalizeRelayURL_amended.1 "  wss://nos.lol//  " (by decide), ?_,
    normalizeRelayURL_amended.2.2 "https://example.com"⟩
  exact normalizeRelayURL_amended.2.1 "wss://nos.lol".toList [' ', ' ']
    ['/', '/'] [' ', ' '] (by decide) (by decide) (by decide) (by decide) (by decide)

/-! ## Claim theorems: discovery -/

/-- C5 counterexample: in the per-account seed walk, a seed that connects
but returns no peer-list document still short-circuits the loop — with
the first seed connecting and yielding no document while the second seed
holds it, only one seed is queried, refuting "a seed that fails to yield
the document causes the next seed in order to be tried". -/
theorem trySeedsForAccount_skips_despite_no_doc :
    ¬ (∀ (seeds : List SeedOutcome) (i : Nat), i + 1 < seeds.length →
        seedYieldedDoc (seeds.getD i SeedOutcome.connectFail) = false →
        i + 2 ≤ (trySeedsForAccount seeds).1) := by
  intro hclaim
  have h := hclaim
    [SeedOutcome.connectOk [], SeedOutcome.connectOk [[["r", "wss://x.example"]]]]
    0 (by decide) (by decide)
  have hval : (trySeedsForAccount
      [SeedOutcome.connectOk [], SeedOutcome.connectOk [[["r", "wss://x.example"]]]]).1 = 1 := rfl
  rw [hval] at h
  omega

/-- C5 (amended): for each reference account the engine tries the seed
peers in order; a seed whose connection fails causes the next seed to be
tried, and the walk stops at the first seed to which a connection
succeeds — whether or not that seed returned the account's peer-list
document — so exactly the failing-connection prefix plus one connected
seed are queried and the tally receives that seed's extracted
addresses. -/
theorem trySeedsForAccount_stops_at_first_connect (pre : List SeedOutcome)
    (events : List (List (List String))) (rest : List SeedOutcome)
    (hpre : ∀ s ∈ pre, s = SeedOutcome.connectFail) :
    trySeedsForAccount (pre ++ SeedOutcome.connectOk events :: rest) =
      (pre.length + 1, extractRelayURLs events) := by
  induction pre with
  | nil => rfl
  | cons s pre' ih =>
    have hs : s = SeedOutcome.connectFail := hpre s (by simp)
    subst hs
    have ih' := ih (fun s' hs' => hpre s' (List.mem_cons_of_mem _ hs'))
    simp only [List.cons_append, trySeedsForAccount, List.append_eq, ih', List.length_cons]

/-- C5 witness: one failing seed, then a connected seed holding a
document with one relay tag (plus a later untried seed): two seeds are
queried and the extracted address is tallied. -/
theorem trySeedsForAccount_stops_at_first_connect_witness :
    trySeedsForAccount
      [SeedOutcome.connectFail,
       SeedOutcome.connectOk [[["r", "wss://x.example/"], ["p", "pk"]]],
       SeedOutcome.connectOk [[["r", "wss://y.example"]]]] =
      (2, ["wss://x.example"]) := by
  have h := trySeedsForAccount_stops_at_first_connect
    [SeedOutcome.connectFail]
    [[["r", "wss://x.example/"], ["p", "pk"]]]
    [SeedOutcome.connectOk [[["r", "wss://y.example"]]]]
    (by simp)
  exact h

end Nihao
